import Mathlib

/-!
A shallow embedding of the core of `src/app.py` (a phone-number / vCard
conversion tool) together with proofs about its specification.

Strings are modelled as `List Char` internally (Python `str` values), with
`String` wrappers at the interfaces.  Python helpers (`str.strip`,
`str.splitlines`, `str.split`, `str.zfill`, `str.replace`, slicing,
`range`, floor division) are modelled by explicit functions below.
-/

namespace VCF

/-- Characters removed by Python `str.strip()` (the ASCII whitespace
fragment; the inputs treated here are ASCII). -/
def pySpace (c : Char) : Bool :=
  c = (' ') || c = ('\t') || c = ('\n') || c = ('\r') || c = ('\x0b') || c = ('\x0c')

/-- Python `str.strip()` on the character list. -/
def pyStrip (l : List Char) : List Char :=
  ((l.dropWhile pySpace).reverse.dropWhile pySpace).reverse

/-- Python `str.lower()` (ASCII fragment). -/
def pyLower (l : List Char) : List Char :=
  l.map Char.toLower

/-- Python `str.startswith` on character lists: `startsWithL pre l`. -/
def startsWithL : List Char → List Char → Bool
  | [], _ => true
  | _ :: _, [] => false
  | p :: ps, c :: cs => p = c && startsWithL ps cs

/-- A character that terminates a line for `str.splitlines`.  The model
covers the line boundaries `\n`, `\r` and `\r\n` (the ones arising in this
program's data); the rarer Unicode boundaries Python also recognises are
outside the modelled fragment. -/
def lineBreak (c : Char) : Bool :=
  c = ('\n') || c = ('\r')

/-- Worker for `splitLines`: `cur` is the reversed current line and
`lastCR` records whether the previous character was `\r` (so that a
following `\n` is swallowed, making `\r\n` one terminator). -/
def splitLinesAux : List Char → List Char → Bool → List (List Char)
  | [], cur, _ => if cur.isEmpty then [] else [cur.reverse]
  | c :: rest, cur, lastCR =>
    if c = ('\n') then
      if lastCR then splitLinesAux rest [] false
      else cur.reverse :: splitLinesAux rest [] false
    else if c = ('\r') then cur.reverse :: splitLinesAux rest [] true
    else splitLinesAux rest (c :: cur) false

/-- Python `str.splitlines()`: splits at `\n`, `\r` and `\r\n`, with no
trailing empty line. -/
def splitLines (l : List Char) : List (List Char) :=
  splitLinesAux l [] false

/-- Python `str.split(sep)` for a single-character separator. -/
def pySplit (sep : Char) (l : List Char) : List (List Char) :=
  match l with
  | [] => [[]]
  | c :: rest =>
    if c = sep then [] :: pySplit sep rest
    else
      match pySplit sep rest with
      | [] => [[c]]
      | r :: rs => (c :: r) :: rs

/-- The substring after the last occurrence of `sep` (the whole string when
`sep` does not occur): the mathematical description of Python's
`s.split(sep)[-1]`. -/
def afterLast (sep : Char) (l : List Char) : List Char :=
  (l.reverse.takeWhile (fun c => c ≠ sep)).reverse

/-! ### Decimal rendering (Python `str(i)` for a nonnegative integer) -/
/-- Fuel-driven worker for `decRepr`. -/
def decReprAux : Nat → Nat → List Char
  | 0, _ => []
  | fuel + 1, n =>
    if n < 10 then [Nat.digitChar n]
    else decReprAux fuel (n / 10) ++ [Nat.digitChar (n % 10)]

/-- Python `str(n)` for `n : Nat`: standard decimal digits. -/
def decRepr (n : Nat) : List Char :=
  decReprAux (n + 1) n

/-- Python `str(i)` for `i : Int`. -/
def intRepr (i : Int) : List Char :=
  if i < 0 then ('-') :: decRepr (-i).toNat else decRepr i.toNat

/-- Python `str.zfill` (for the nonnegative-number strings used here):
left-pad with `'0'` to width `w`. -/
def zfill (w : Nat) (l : List Char) : List Char :=
  List.replicate (w - l.length) ('0') ++ l

/-- Python `enumerate(xs, start=k)`. -/
def pyEnum (k : Nat) : List α → List (Nat × α)
  | [] => []
  | x :: xs => (k, x) :: pyEnum (k + 1) xs

/-- Python `range(k)` for an integer bound (empty when `k ≤ 0`). -/
def intRange (k : Int) : List Int :=
  (List.range k.toNat).map (fun (s : Nat) => (s : Int))

/-- Python list slicing `xs[a:b]` (step 1), with negative-index and
clamping semantics. -/
def pySlice (xs : List α) (a b : Int) : List α :=
  let n : Int := xs.length
  let lo := if a < 0 then max (n + a) 0 else min a n
  let hi := if b < 0 then max (n + b) 0 else min b n
  (xs.drop lo.toNat).take (hi.toNat - lo.toNat)

/-- `"\n".join(lines)` on character lists. -/
def joinNL : List (List Char) → List Char
  | [] => []
  | [l] => l
  | l :: ls => l ++ ('\n') :: joinNL ls

/-! ### A model of the `phonenumbers` library (NANP fragment)

`normalize_number` in `src/app.py` calls `phonenumbers.parse(_, None)`,
`phonenumbers.is_possible_number` and
`phonenumbers.format_number(_, E164)`.  The library itself is a metadata
interpreter; it is modelled here for the fragment exercised by this
program: numbers in international form (`+` prefix required when no
default region is given), a calling-code table restricted to country
calling code `1` (NANP, region US), separator punctuation, and the
libphonenumber US metadata: possible national-number length `10`
(`is_possible_number`), general national-number pattern
`[2-9]\d×9` or `3\d×6` (`is_valid_number`; the library's full validity
check matches type-specific patterns and is a subset of this general
pattern, so a number invalid here is invalid in the library too).
Vanity (letter) numbers and other calling codes are outside the modelled
fragment and are mapped to parse errors. -/
namespace phonenumbers

/-- A parsed number: country calling code plus national significant
digits (leading zeros kept, as the library's `italian_leading_zero`
flag does). -/
structure ParsedNumber where
  countryCode : Nat
  nationalNumber : List Char
deriving DecidableEq, Repr

/-- Parse failures (`NumberParseException` reasons). -/
inductive ParseError where
  | invalidCountryCode
  | notANumber
  | tooShortNsn
  | tooLongNsn
deriving DecidableEq, Repr

/-- Punctuation the library accepts inside a phone number. -/
def sepChar (c : Char) : Bool :=
  c = (' ') || c = ('-') || c = ('.') || c = ('(') || c = (')') || c = ('/')

/-- Country-calling-code extraction: the library tries the 1–3 digit
prefixes of the digit string against its calling-code table; the modelled
table holds code `1` only. -/
def extractCountryCode (ds : List Char) : Option (Nat × List Char) :=
  if startsWithL (('1') :: []) ds then some (1, ds.drop 1) else none

/-- `phonenumbers.parse(s, None)`: requires a leading `+`, accepts digits
and separator punctuation, extracts the country code, and bounds the
national-number length (2–17 digits). -/
def parse (s : List Char) : Except ParseError ParsedNumber :=
  match s with
  | '+' :: rest =>
      if rest.all (fun c => c.isDigit || sepChar c) then
        match extractCountryCode (rest.filter Char.isDigit) with
        | none => .error .invalidCountryCode
        | some (cc, nat) =>
            if nat.length < 2 then .error .tooShortNsn
            else if 17 < nat.length then .error .tooLongNsn
            else .ok ⟨cc, nat⟩
      else .error .notANumber
  | _ => .error .invalidCountryCode

/-- `phonenumbers.is_possible_number`: a pure length check against the
region's possible lengths (US: national number of exactly 10 digits;
7-digit numbers are local-only and yield `False`). -/
def is_possible_number (p : ParsedNumber) : Bool :=
  match p.countryCode with
  | 1 => p.nationalNumber.length = 10
  | _ => false

/-- `phonenumbers.is_valid_number`, over-approximated by the US general
national-number pattern `[2-9]\d×9` or `3\d×6`. -/
def is_valid_number (p : ParsedNumber) : Bool :=
  match p.countryCode with
  | 1 =>
      (p.nationalNumber.length = 10 &&
        (('2') ≤ p.nationalNumber.headD ('0') && p.nationalNumber.headD ('0') ≤ ('9')) &&
        p.nationalNumber.all Char.isDigit) ||
      (p.nationalNumber.length = 7 && p.nationalNumber.headD ('0') = ('3') &&
        p.nationalNumber.all Char.isDigit)
  | _ => false

/-- `phonenumbers.format_number(p, E164)`: `+`, country code, national
digits, no separators. -/
def format_E164 (p : ParsedNumber) : List Char :=
  ('+') :: decRepr p.countryCode ++ p.nationalNumber

end phonenumbers

/-! ### The helpers of `src/app.py` -/
/-- `clean_raw_numbers` (src/app.py lines 21–26): keep truthy lines whose
stripped, lowered form is not `nan`/`none`; strip a BOM and surrounding
whitespace from the survivors. -/
def clean_raw_numbers (lines : List String) : List String :=
  (lines.filter (fun l =>
    !(l.data.isEmpty) &&
    !(decide (pyLower (pyStrip l.data) = ('n') :: ('a') :: ('n') :: [])) &&
    !(decide (pyLower (pyStrip l.data) = ('n') :: ('o') :: ('n') :: ('e') :: [])))).map
    (fun l => String.mk (pyStrip (l.data.filter (fun c => !(c = ('\uFEFF'))))))

/-- `normalize_number` (src/app.py lines 29–48): strip, take the digit
form, parse as international (prefixing `+` when absent), accept when
`is_possible_number` holds, and render in E164; every failure gives
`none`. -/
def normalize_number (raw : String) : Option String :=
  let r := pyStrip raw.data
  if r.isEmpty then none
  else
    let digits := r.filter Char.isDigit
    let toParse := if startsWithL (('+') :: []) r then r else ('+') :: digits
    match phonenumbers.parse toParse with
    | .error _ => none
    | .ok num =>
        if phonenumbers.is_possible_number num then
          some (String.mk (phonenumbers.format_E164 num))
        else none

/-- Worker for `extract_numbers_from_vcf`: the loop body. -/
def extractNumsAux : List (List Char) → List String
  | [] => []
  | line :: rest =>
    if startsWithL (('T') :: ('E') :: ('L') :: []) line then
      String.mk (pyStrip ((pySplit (':') line).getLastD [])) :: extractNumsAux rest
    else extractNumsAux rest

/-- `extract_numbers_from_vcf` (src/app.py lines 51–56): for each line
starting with `TEL`, append `line.split(":")[-1].strip()`. -/
def extract_numbers_from_vcf (content : String) : List String :=
  extractNumsAux (splitLines content.data)

/-- Python `line.replace("FN:", "")`: remove every occurrence,
left-to-right. -/
def removeFN : List Char → List Char
  | 'F' :: 'N' :: ':' :: rest => removeFN rest
  | c :: rest => c :: removeFN rest
  | [] => []

/-- Worker for `extract_contacts_from_vcf`: state is the current `FN`
name (`none` before any) and the accumulated `TEL` values. -/
def contactsAux : List (List Char) → Option (List Char) → List (List Char) →
    List (String × List String)
  | [], _, _ => []
  | line :: rest, cur, nums =>
    let l := pyStrip line
    if startsWithL (('F') :: ('N') :: (':') :: []) l then
      contactsAux rest (some (pyStrip (removeFN l))) []
    else if startsWithL (('T') :: ('E') :: ('L') :: []) l then
      contactsAux rest cur (nums ++ [pyStrip ((pySplit (':') l).getLastD [])])
    else if l = ("END:VCARD").data then
      match cur with
      | some nm =>
          if nm.isEmpty then contactsAux rest cur nums
          else (String.mk nm, nums.map String.mk) :: contactsAux rest none []
      | none => contactsAux rest cur nums
    else contactsAux rest cur nums

/-- `extract_contacts_from_vcf` (src/app.py lines 59–76): emit
`(current_name, numbers)` at each `END:VCARD` with a truthy current
name. -/
def extract_contacts_from_vcf (content : String) : List (String × List String) :=
  contactsAux (splitLines content.data) none []

/-- Python exceptions that `generate_vcf` can raise (it guards nothing, so
a zero batch size reaches the floor division). -/
inductive PyErr where
  | zeroDivision
deriving DecidableEq, Repr

/-- The padded per-record index of `generate_vcf` (src/app.py lines 86 and
90): `str(i).zfill(len(str(len(chunk))))`. -/
def paddedIdx (chunkLen i : Nat) : List Char :=
  zfill (decRepr chunkLen).length (decRepr i)

/-- The six lines of one record emitted by `generate_vcf`
(src/app.py lines 93–100). -/
def vcfRecordLines (np : List Char) (set_no : Int) (idx num : List Char) :
    List (List Char) :=
  [("BEGIN:VCARD").data,
   ("VERSION:3.0").data,
   ("N:").data ++ idx ++ (";").data ++ np ++ (" ").data ++ intRepr set_no ++ (";;;").data,
   ("FN:").data ++ np ++ (" ").data ++ intRepr set_no ++ (" ").data ++ idx,
   ("TEL;TYPE=CELL:").data ++ num,
   ("END:VCARD").data]

/-- All lines of one batch: the inner loop of `generate_vcf`
(src/app.py lines 89–100). -/
def renderChunk (np : List Char) (set_no : Int) (chunk : List (List Char)) :
    List (List Char) :=
  (pyEnum 1 chunk).flatMap
    (fun p => vcfRecordLines np set_no (paddedIdx chunk.length p.1) p.2)

/-- The dict key of one batch: `f"(file prefix) (set number).vcf"`
(src/app.py line 102). -/
def vcfFileName (fp : String) (set_no : Int) : String :=
  String.mk (fp.data ++ (" ").data ++ intRepr set_no ++ (".vcf").data)

/-- The text of one batch: its record lines joined with `\n`
(src/app.py line 102). -/
def vcfBody (np : String) (set_no : Int) (chunk : List (List Char)) : String :=
  String.mk (joinNL (renderChunk np.data set_no chunk))

/-- `generate_vcf` (src/app.py lines 79-104): ceil-divide into batches by
slicing, render each batch, and file it under
`"(file prefix) (set number).vcf"`.  The result models the Python dict in
insertion order; `batch_size = 0` models the uncaught `ZeroDivisionError`
of the floor division computing `total_sets`. -/
def generate_vcf (numbers : List String) (np fp : String)
    (set_start batch_size : Int) : Except PyErr (List (String × String)) :=
  if batch_size = 0 then .error .zeroDivision
  else
    let nums := numbers.map String.data
    let total_sets := Int.fdiv ((numbers.length : Int) + batch_size - 1) batch_size
    .ok ((intRange total_sets).map (fun s =>
      let chunk := pySlice nums (s * batch_size) ((s + 1) * batch_size)
      let set_no := set_start + s
      (vcfFileName fp set_no, vcfBody np set_no chunk)))

/-- The batch decomposition performed by `generate_vcf` for a positive
batch size (src/app.py lines 81–85), paired with its set numbers:
`ceil(len/batch)` many slices of `batch` consecutive items. -/
def vcfBatches (items : List String) (b : Nat) (start : Int) :
    List (Int × List String) :=
  (List.range ((items.length + b - 1) / b)).map
    (fun (s : Nat) => ((start + (s : Int)), (items.drop (s * b)).take b))

/-! ### The merge engine (src/app.py lines 107–138) -/
/-- Adding one element to a Python set, modelled as a duplicate-free list
in insertion order (all later uses are order-insensitive). -/
def sInsert (s : List String) (x : String) : List String :=
  if x ∈ s then s else s ++ [x]

/-- `s.update(xs)` / set union. -/
def sUnion (s xs : List String) : List String :=
  xs.foldl sInsert s

/-- `set(xs)`. -/
def pySet (xs : List String) : List String :=
  sUnion [] xs

/-- `merged.setdefault(k, set()).update(v)` on an insertion-ordered
dict. -/
def dictUpdate (d : List (String × List String)) (k : String) (v : List String) :
    List (String × List String) :=
  match d with
  | [] => [(k, pySet v)]
  | (k', s) :: rest =>
      if k' = k then (k', sUnion s v) :: rest else (k', s) :: dictUpdate rest k v

/-- `merged[k] = v` on an insertion-ordered dict. -/
def dictAssign (d : List (String × List String)) (k : String) (v : List String) :
    List (String × List String) :=
  match d with
  | [] => [(k, v)]
  | (k', s) :: rest =>
      if k' = k then (k', v) :: rest else (k', s) :: dictAssign rest k v

/-- The accumulation loop of `merge_vcf_files` (src/app.py lines 110–116). -/
def mergedDict (texts : List String) (merge_by_name : Bool) :
    List (String × List String) :=
  texts.foldl
    (fun d content =>
      (extract_contacts_from_vcf content).foldl
        (fun d c =>
          if merge_by_name then dictUpdate d c.1 (pySet c.2)
          else dictAssign d (c.1 ++ ("_") ++ String.mk (decRepr (d.length + 1)))
            (pySet c.2))
        d)
    []

/-- The `merge_by_number` pass of `merge_vcf_files` (src/app.py lines
118–124): walk the dict in order, keep in each contact only the numbers
not seen in earlier contacts, and add every visited number to `seen`. -/
def dedupeNums : List (String × List String) → List String →
    List (String × List String)
  | [], _ => []
  | (nm, s) :: rest, seen =>
      (nm, s.filter (fun n => !(decide (n ∈ seen)))) :: dedupeNums rest (sUnion seen s)

/-- Insertion of one string into an ascending list (Python `sorted`,
restricted to what the render loop needs: an order-correct, content-equal
arrangement). -/
def insSorted (x : String) : List String → List String
  | [] => [x]
  | y :: ys => if x ≤ y then x :: y :: ys else y :: insSorted x ys

/-- Python `sorted(numbers)` (lexicographic string order). -/
def sortStrings : List String → List String
  | [] => []
  | x :: xs => insSorted x (sortStrings xs)

/-- The lines rendered for one surviving contact (src/app.py lines
130–136). -/
def renderContactLines (nm : String) (nums : List String) : List (List Char) :=
  [("BEGIN:VCARD").data,
   ("VERSION:3.0").data,
   ("N:").data ++ nm.data ++ (";;;;").data,
   ("FN:").data ++ nm.data] ++
  (sortStrings nums).map (fun n => ("TEL;TYPE=CELL:").data ++ n.data) ++
  [("END:VCARD").data]

/-- `merge_vcf_files` (src/app.py lines 107–138).  The render loop's
`if not numbers: continue` appears as the empty-case branch. -/
def merge_vcf_files (texts : List String) (merge_by_name merge_by_number : Bool) :
    String :=
  let merged := mergedDict texts merge_by_name
  let merged2 := if merge_by_number then dedupeNums merged [] else merged
  String.mk (joinNL (merged2.flatMap
    (fun c => if c.2.isEmpty then [] else renderContactLines c.1 c.2)))

/-! ### The TXT ➜ VCF collector loop (src/app.py lines 175–180) -/
/-- The `seen`/`ordered` loop: normalize each cleaned token, skip falsy or
already-seen results, append the rest in order. -/
def collectAux (seen : List String) : List String → List String
  | [] => []
  | r :: rest =>
      match normalize_number r with
      | none => collectAux seen rest
      | some n =>
          if n = ("") ∨ n ∈ seen then collectAux seen rest
          else n :: collectAux (n :: seen) rest

/-- The collector of the TXT ➜ VCF tab: clean, normalize, deduplicate
keeping first occurrences. -/
def collectNumbers (raws : List String) : List String :=
  collectAux [] (clean_raw_numbers raws)

/-- First-occurrence deduplication, stated structurally: keep the head,
drop its later duplicates, recurse.  This is the specification against
which the `seen`/`ordered` loop is proved. -/
def keepFirst : List String → List String
  | [] => []
  | a :: l => a :: keepFirst (l.filter (fun b => !(b == a)))
termination_by l => l.length
decreasing_by
  simp only [List.length_cons]
  exact Nat.lt_succ_of_le (List.length_filter_le _ _)

/-- The collector loop after normalization: skip falsy or seen values,
append the rest (the pure deduplication part of `collectAux`). -/
def dedupLoop (seen : List String) : List String → List String
  | [] => []
  | n :: rest =>
      if n = ("") ∨ n ∈ seen then dedupLoop seen rest
      else n :: dedupLoop (n :: seen) rest

/-- The number-extraction contract as the specification words it: one
entry per line whose **trimmed** content begins with `TEL`, the entry
being the substring after the last colon, trimmed. -/
def extractNumbersClaimed (content : String) : List String :=
  ((splitLines content.data).filter
      (fun l => startsWithL (("TEL").data) (pyStrip l))).map
    (fun l => String.mk (pyStrip (afterLast (':') l)))

theorem pySplit_cons_self (sep : Char) (rest : List Char) :
    pySplit sep (sep :: rest) = [] :: pySplit sep rest := by
  rw [pySplit.eq_def]
  simp

theorem pySplit_cons_ne (sep c : Char) (rest : List Char) (h : c ≠ sep) :
    pySplit sep (c :: rest) =
      match pySplit sep rest with
      | [] => [[c]]
      | r :: rs => (c :: r) :: rs := by
  rw [pySplit.eq_def]
  simp [h]

theorem pySplit_ne_nil (sep : Char) (l : List Char) : pySplit sep l ≠ [] := by
  match l with
  | [] => simp [pySplit]
  | c :: rest =>
      rw [pySplit.eq_def]
      by_cases h : c = sep
      · simp [h]
      · simp only [h, if_false]
        split <;> simp

theorem takeWhile_append_stop (p : Char → Bool) (l l' : List Char)
    (h : ¬ ∀ a ∈ l, p a = true) : (l ++ l').takeWhile p = l.takeWhile p := by
  induction l with
  | nil => exact absurd (by simp) h
  | cons c cs ih =>
      by_cases hc : p c
      · have h' : ¬ ∀ a ∈ cs, p a = true := by
          intro hall
          exact h (by
            intro a ha
            rcases List.mem_cons.mp ha with rfl | ha'
            · exact hc
            · exact hall a ha')
        simp [List.takeWhile_cons, hc, ih h']
      · simp [List.takeWhile_cons, hc]

theorem takeWhile_append_all (p : Char → Bool) (l l' : List Char)
    (h : ∀ a ∈ l, p a = true) : (l ++ l').takeWhile p = l ++ l'.takeWhile p := by
  induction l with
  | nil => simp
  | cons c cs ih =>
      have hc : p c = true := h c (by simp)
      simp [List.takeWhile_cons, hc, ih (by intro a ha; exact h a (by simp [ha]))]

theorem takeWhile_all (p : Char → Bool) (l : List Char)
    (h : ∀ a ∈ l, p a = true) : l.takeWhile p = l := by
  induction l with
  | nil => simp
  | cons c cs ih =>
      have hc : p c = true := h c (by simp)
      simp [List.takeWhile_cons, hc, ih (by intro a ha; exact h a (by simp [ha]))]

theorem afterLast_of_not_mem (sep : Char) (l : List Char) (h : sep ∉ l) :
    afterLast sep l = l := by
  unfold afterLast
  rw [takeWhile_all, List.reverse_reverse]
  intro a ha
  simp only [decide_eq_true_eq]
  rintro rfl
  exact h (by simpa using ha)

theorem afterLast_cons_of_mem (sep c : Char) (rest : List Char) (h : sep ∈ rest) :
    afterLast sep (c :: rest) = afterLast sep rest := by
  unfold afterLast
  rw [List.reverse_cons, takeWhile_append_stop]
  intro hall
  have := hall sep (by simpa using h)
  simp at this

theorem afterLast_cons_of_not_mem (sep c : Char) (rest : List Char)
    (h : sep ∉ rest) (hc : c ≠ sep) : afterLast sep (c :: rest) = c :: rest := by
  unfold afterLast
  rw [List.reverse_cons, takeWhile_append_all, List.takeWhile_cons]
  · simp [hc]
  · intro a ha
    simp only [decide_eq_true_eq]
    rintro rfl
    exact h (by simpa using ha)

theorem afterLast_cons_self_of_not_mem (sep : Char) (rest : List Char)
    (h : sep ∉ rest) : afterLast sep (sep :: rest) = rest := by
  unfold afterLast
  rw [List.reverse_cons, takeWhile_append_all, List.takeWhile_cons]
  · simp
  · intro a ha
    simp only [decide_eq_true_eq]
    rintro rfl
    exact h (by simpa using ha)

theorem pySplit_of_not_mem (sep : Char) (l : List Char) (h : sep ∉ l) :
    pySplit sep l = [l] := by
  induction l with
  | nil => simp [pySplit]
  | cons c rest ih =>
      have hc : c ≠ sep := by rintro rfl; exact h (by simp)
      rw [pySplit_cons_ne _ _ _ hc, ih (by intro hm; exact h (by simp [hm]))]

theorem pySplit_two_le_of_mem (sep : Char) (l : List Char) (h : sep ∈ l) :
    2 ≤ (pySplit sep l).length := by
  induction l with
  | nil => simp at h
  | cons c rest ih =>
      by_cases hc : c = sep
      · subst hc
        rw [pySplit_cons_self]
        have := List.length_pos.mpr (pySplit_ne_nil c rest)
        simp only [List.length_cons]
        omega
      · have hm : sep ∈ rest := by
          rcases List.mem_cons.mp h with rfl | hm
          · exact absurd rfl hc
          · exact hm
        rcases hsp : pySplit sep rest with _ | ⟨r, rs⟩
        · exact absurd hsp (pySplit_ne_nil _ _)
        · have h2 := ih hm
          rw [hsp] at h2
          rw [pySplit_cons_ne _ _ _ hc, hsp]
          simpa using h2

/-- `s.split(sep)[-1]` is the substring after the last separator. -/
theorem pySplit_getLastD (sep : Char) (l : List Char) :
    (pySplit sep l).getLastD [] = afterLast sep l := by
  induction l with
  | nil => simp [pySplit, afterLast]
  | cons c rest ih =>
      by_cases hc : c = sep
      · subst hc
        rw [pySplit_cons_self, List.getLastD_cons]
        rcases hsp : pySplit c rest with _ | ⟨r, rs⟩
        · exact absurd hsp (pySplit_ne_nil _ _)
        · rw [hsp] at ih
          rw [List.getLastD_cons] at ih
          rw [List.getLastD_cons, ih]
          by_cases hm : c ∈ rest
          · rw [afterLast_cons_of_mem _ _ _ hm]
          · rw [afterLast_cons_self_of_not_mem _ _ hm, afterLast_of_not_mem _ _ hm]
      · by_cases hm : sep ∈ rest
        · rcases hsp : pySplit sep rest with _ | ⟨r, rs⟩
          · exact absurd hsp (pySplit_ne_nil _ _)
          · have h2 := pySplit_two_le_of_mem sep rest hm
            rw [hsp] at h2
            rw [afterLast_cons_of_mem _ _ _ hm, ← ih, hsp,
              pySplit_cons_ne _ _ _ hc, hsp]
            rcases rs with _ | ⟨r2, rs2⟩
            · simp at h2
            · simp [List.getLastD_cons]
        · rw [pySplit_cons_ne _ _ _ hc, pySplit_of_not_mem _ _ hm]
          simp only [List.getLastD_cons, List.getLastD_nil]
          rw [afterLast_cons_of_not_mem _ _ _ hm hc]

theorem decReprAux_fuel (f g n : Nat) (hf : n < f) (hg : n < g) :
    decReprAux f n = decReprAux g n := by
  induction n using Nat.strong_induction_on generalizing f g with
  | _ n ih =>
    cases f with
    | zero => omega
    | succ f' =>
      cases g with
      | zero => omega
      | succ g' =>
        by_cases h : n < 10
        · simp [decReprAux, h]
        · have hdiv : n / 10 < n := Nat.div_lt_self (by omega) (by omega)
          simp only [decReprAux, h, if_false]
          rw [ih (n / 10) hdiv f' g' (by omega) (by omega)]

theorem decRepr_eq (n : Nat) :
    decRepr n =
      if n < 10 then [Nat.digitChar n]
      else decRepr (n / 10) ++ [Nat.digitChar (n % 10)] := by
  by_cases h : n < 10
  · unfold decRepr
    simp [decReprAux, h]
  · have hdiv : n / 10 < n := Nat.div_lt_self (by omega) (by omega)
    have h1 : decRepr n = decReprAux n (n / 10) ++ [Nat.digitChar (n % 10)] := by
      unfold decRepr
      simp [decReprAux, h]
    rw [if_neg h, h1, decReprAux_fuel n (n / 10 + 1) (n / 10) (by omega) (by omega)]
    rfl

theorem decRepr_length_pos (n : Nat) : 1 ≤ (decRepr n).length := by
  rw [decRepr_eq]
  by_cases h : n < 10
  · simp [h]
  · simp [h]

theorem decRepr_length_mono (n m : Nat) (h : n ≤ m) :
    (decRepr n).length ≤ (decRepr m).length := by
  induction m using Nat.strong_induction_on generalizing n with
  | _ m ih =>
    by_cases hm : m < 10
    · rw [decRepr_eq n, decRepr_eq m]
      simp [hm, show n < 10 by omega]
    · rw [decRepr_eq m]
      simp only [hm, if_false]
      by_cases hn : n < 10
      · rw [decRepr_eq n]
        simp only [hn, if_true]
        have := decRepr_length_pos (m / 10)
        simp only [List.length_append, List.length_cons, List.length_singleton,
          List.length_nil]
        omega
      · rw [decRepr_eq n]
        simp only [hn, if_false]
        have hdm : m / 10 < m := Nat.div_lt_self (by omega) (by omega)
        have hle : n / 10 ≤ m / 10 := Nat.div_le_div_right h
        have := ih (m / 10) hdm (n / 10) hle
        simp only [List.length_append, List.length_cons, List.length_nil]
        omega

theorem zfill_length (w : Nat) (l : List Char) :
    (zfill w l).length = max w l.length := by
  simp [zfill]
  omega

theorem pyEnum_mem (k : Nat) (l : List α) (i : Nat) (x : α)
    (h : (i, x) ∈ pyEnum k l) : k ≤ i ∧ i < k + l.length ∧ x ∈ l := by
  induction l generalizing k with
  | nil => simp [pyEnum] at h
  | cons y ys ih =>
      rcases List.mem_cons.mp h with heq | hmem
      · have h1 : i = k := congrArg Prod.fst heq
        have h2 : x = y := congrArg Prod.snd heq
        subst h1
        subst h2
        exact ⟨le_refl _, by simp only [List.length_cons]; omega, by simp⟩
      · obtain ⟨h1, h2, h3⟩ := ih (k + 1) hmem
        exact ⟨by omega, by simp only [List.length_cons]; omega,
          List.mem_cons_of_mem _ h3⟩

theorem pySlice_nonneg (xs : List α) (i j : Nat) :
    pySlice xs (i : Int) (j : Int) = (xs.drop i).take (j - i) := by
  unfold pySlice
  have hi0 : ¬ ((i : Int) < 0) := by omega
  have hj0 : ¬ ((j : Int) < 0) := by omega
  simp only [hi0, hj0, if_false]
  have hlo : (min (i : Int) (xs.length : Int)).toNat = min i xs.length := by omega
  have hhi : (min (j : Int) (xs.length : Int)).toNat = min j xs.length := by omega
  rw [hlo, hhi]
  by_cases hin : i ≤ xs.length
  · have : min i xs.length = i := by omega
    rw [this]
    by_cases hjn : j ≤ xs.length
    · have : min j xs.length = j := by omega
      rw [this]
    · have hj : min j xs.length = xs.length := by omega
      rw [hj]
      have hlen : (xs.drop i).length = xs.length - i := List.length_drop i xs
      rw [List.take_of_length_le (by omega), List.take_of_length_le (by omega)]
  · have hmin : min i xs.length = xs.length := by omega
    rw [hmin]
    rw [List.drop_length, List.drop_eq_nil_of_le (by omega)]
    simp

theorem splitLinesAux_nl (rest cur : List Char) :
    splitLinesAux (('\n') :: rest) cur false =
      cur.reverse :: splitLinesAux rest [] false := by
  simp [splitLinesAux]

theorem splitLinesAux_other (c : Char) (rest cur : List Char) (b : Bool)
    (hn : c ≠ ('\n')) (hr : c ≠ ('\r')) :
    splitLinesAux (c :: rest) cur b = splitLinesAux rest (c :: cur) false := by
  simp [splitLinesAux, hn, hr]

theorem splitLinesAux_breakfree_end (a : List Char)
    (h : ∀ c ∈ a, lineBreak c = false) :
    ∀ cur b, splitLinesAux a cur b =
      if cur.reverse ++ a = [] then [] else [cur.reverse ++ a] := by
  induction a with
  | nil =>
      intro cur b
      by_cases hc : cur = []
      · simp [hc, splitLinesAux]
      · have h1 : cur.isEmpty = false := by simp [hc]
        have h2 : ¬ (cur.reverse ++ ([] : List Char) = []) := by
          simp only [List.append_nil]
          intro h'
          exact hc (by simpa using congrArg List.reverse h')
        rw [show splitLinesAux [] cur b =
          (if cur.isEmpty then [] else [cur.reverse]) from rfl, h1, if_neg h2]
        simp
  | cons c a' ih =>
      intro cur b
      have hc := h c (by simp)
      have hn : ¬ c = ('\n') := by
        rintro rfl; simp [lineBreak] at hc
      have hr : ¬ c = ('\r') := by
        rintro rfl; simp [lineBreak] at hc
      rw [splitLinesAux_other c a' cur b hn hr, ih (fun x hx => h x (by simp [hx]))]
      simp

theorem splitLinesAux_breakfree_nl (a : List Char)
    (h : ∀ c ∈ a, lineBreak c = false) :
    ∀ t cur, splitLinesAux (a ++ ('\n') :: t) cur false =
      (cur.reverse ++ a) :: splitLinesAux t [] false := by
  induction a with
  | nil =>
      intro t cur
      rw [List.nil_append, splitLinesAux_nl]
      simp
  | cons c a' ih =>
      intro t cur
      have hc := h c (by simp)
      have hn : ¬ c = ('\n') := by
        rintro rfl; simp [lineBreak] at hc
      have hr : ¬ c = ('\r') := by
        rintro rfl; simp [lineBreak] at hc
      rw [List.cons_append, splitLinesAux_other c _ cur false hn hr,
        ih (fun x hx => h x (by simp [hx]))]
      simp

/-- Joining break-free lines whose last line is nonempty and splitting
again is the identity. -/
theorem splitLines_joinNL (ls : List (List Char))
    (hbf : ∀ l ∈ ls, ∀ c ∈ l, lineBreak c = false)
    (hlast : ∀ l, ls.getLast? = some l → l ≠ []) :
    splitLines (joinNL ls) = ls := by
  induction ls with
  | nil => simp [joinNL, splitLines, splitLinesAux]
  | cons a tail ih =>
      cases tail with
      | nil =>
          have ha : a ≠ [] := hlast a (by simp)
          unfold splitLines
          rw [show joinNL [a] = a from rfl,
            splitLinesAux_breakfree_end a (hbf a (by simp)) []]
          simp [ha]
      | cons b ls' =>
          have hj : joinNL (a :: b :: ls') = a ++ ('\n') :: joinNL (b :: ls') := rfl
          unfold splitLines
          rw [hj, splitLinesAux_breakfree_nl a (hbf a (by simp)) _ []]
          simp only [List.reverse_nil, List.nil_append, List.cons.injEq, true_and]
          exact ih (fun l hl => hbf l (by simp [hl]))
            (fun l hl => hlast l (by rw [List.getLast?_cons_cons]; exact hl))

theorem intRange_nonpos (k : Int) (h : k ≤ 0) : intRange k = [] := by
  unfold intRange
  rw [Int.toNat_of_nonpos h]
  rfl

theorem fdiv_neg_one_nonpos (m : Nat) : Int.fdiv (m : Int) (-1) ≤ 0 :=
  Int.fdiv_nonpos (by omega) (by omega)

theorem generate_vcf_nonpos_total (numbers : List String) (np fp : String)
    (ss bs : Int) (hbs : bs ≠ 0)
    (h : Int.fdiv ((numbers.length : Int) + bs - 1) bs ≤ 0) :
    generate_vcf numbers np fp ss bs = .ok [] := by
  simp [generate_vcf, hbs, intRange_nonpos _ h]

/-- Claim C9 (amended): `generate_vcf` performs no batch-size validation.
A batch size of `0` reaches the floor division and raises
`ZeroDivisionError`; a batch size of `-1` (with at least two numbers)
silently produces an empty mapping instead of rejecting the call.  The
`≥ 1` bound exists only in the UI widgets (`st.number_input(..., 1, ...)`),
outside this core. -/
theorem c9_no_batch_validation (numbers : List String) (np fp : String)
    (ss : Int) (h : 2 ≤ numbers.length) :
    generate_vcf numbers np fp ss 0 = .error .zeroDivision ∧
    generate_vcf numbers np fp ss (-1) = .ok [] := by
  constructor
  · simp [generate_vcf]
  · apply generate_vcf_nonpos_total _ _ _ _ _ (by decide)
    have h1 : (numbers.length : Int) + (-1) - 1 = ((numbers.length - 2 : Nat) : Int) := by
      push_cast [h]
      omega
    rw [h1]
    exact fdiv_neg_one_nonpos _

/-- Claim C9, counterexample to the claim as stated: with a negative
batch size the code does not reject the configuration — it proceeds and
returns an (empty) output mapping; with batch size `0` it raises an
uncaught arithmetic error. -/
theorem c9_counterexample :
    generate_vcf [("+12025550123"), ("+12025550124")] ("C") ("F") 1 (-1) =
      .ok [] ∧
    generate_vcf [("+12025550123"), ("+12025550124")] ("C") ("F") 1 0 =
      .error .zeroDivision := by
  constructor
  · rfl
  · rfl

/-- Claim C9, witness: the amended theorem applied to a concrete
two-number call. -/
theorem c9_witness :
    generate_vcf [("+12025550123"), ("+12025550124")] ("C") ("F") 7 0 =
      .error .zeroDivision ∧
    generate_vcf [("+12025550123"), ("+12025550124")] ("C") ("F") 7 (-1) =
      .ok [] :=
  c9_no_batch_validation [("+12025550123"), ("+12025550124")] ("C") ("F") 7
    (by decide)

/-- Claim C1, counterexample: `+11234567890` parses to the US number with
national digits `1234567890`, which is possible (10 digits) but not valid
(a NANP area code cannot start with `1`), yet `normalize_number` accepts
it — so acceptance is not conditioned on numbering-plan validity. -/
theorem c1_counterexample :
    normalize_number ("+11234567890") = some ("+11234567890") ∧
    phonenumbers.parse (("+11234567890").data) =
      .ok ⟨1, ("1234567890").data⟩ ∧
    phonenumbers.is_valid_number ⟨1, ("1234567890").data⟩ = false := by
  refine ⟨rfl, rfl, rfl⟩

/-- Claim C1 (amended): `normalize_number` returns a canonical number
exactly for inputs whose parse succeeds and passes the *possible-number*
(plausible-length) check `is_possible_number` — not the assignability
check `is_valid_number` — and the returned string is the E164 rendering
of that parse; there is no caller-selectable strictness mode. -/
theorem c1_accepts_possible (raw n : String)
    (h : normalize_number raw = some n) :
    ∃ p : phonenumbers.ParsedNumber,
      phonenumbers.parse
        (if startsWithL (('+') :: []) (pyStrip raw.data) then pyStrip raw.data
         else ('+') :: (pyStrip raw.data).filter Char.isDigit) = .ok p ∧
      phonenumbers.is_possible_number p = true ∧
      n = String.mk (phonenumbers.format_E164 p) := by
  unfold normalize_number at h
  by_cases he : (pyStrip raw.data).isEmpty
  · simp [he] at h
  · simp only [he, Bool.false_eq_true, if_false] at h
    rcases hp : phonenumbers.parse
        (if startsWithL (('+') :: []) (pyStrip raw.data) then pyStrip raw.data
         else ('+') :: (pyStrip raw.data).filter Char.isDigit) with e | num
    · rw [hp] at h
      simp at h
    · rw [hp] at h
      by_cases hposs : phonenumbers.is_possible_number num
      · simp only [hposs, if_true] at h
        exact ⟨num, rfl, hposs, (Option.some.injEq _ _ ▸ h).symm⟩
      · simp [hposs] at h

/-- Claim C1, witness: a valid US number is normalized, and the amended
theorem exhibits its parse. -/
theorem c1_witness :
    normalize_number ("+12025550123") = some ("+12025550123") ∧
    ∃ p : phonenumbers.ParsedNumber,
      phonenumbers.parse
        (if startsWithL (('+') :: []) (pyStrip ("+12025550123").data)
         then pyStrip ("+12025550123").data
         else ('+') :: (pyStrip ("+12025550123").data).filter Char.isDigit) =
        .ok p ∧
      phonenumbers.is_possible_number p = true ∧
      ("+12025550123") = String.mk (phonenumbers.format_E164 p) :=
  ⟨rfl, c1_accepts_possible ("+12025550123") ("+12025550123") rfl⟩

/-- Claim C5, counterexample: the first token of the scenario does not
normalize to `+11234567890` — prefixing `+` to its digit form gives
`+1234567890`, whose national number after country-code extraction has 9
digits and fails the possible-length check, so the normalizer rejects
it. -/
theorem c5_counterexample : normalize_number ("123-456-7890") = none := rfl

/-- Claim C5 (amended): in the scenario
`["123-456-7890", "+11234567890", "nan", ""]` the cleaner drops the last
two tokens, the normalizer rejects `123-456-7890` and maps
`+11234567890` to itself, the collector output is the single-element
sequence `["+11234567890"]`, and 3 of the 4 tokens (not 2) fail to
normalize. -/
theorem c5_scenario :
    clean_raw_numbers [("123-456-7890"), ("+11234567890"), ("nan"), ("")] =
      [("123-456-7890"), ("+11234567890")] ∧
    normalize_number ("123-456-7890") = none ∧
    normalize_number ("+11234567890") = some ("+11234567890") ∧
    collectNumbers [("123-456-7890"), ("+11234567890"), ("nan"), ("")] =
      [("+11234567890")] ∧
    ([("123-456-7890"), ("+11234567890"), ("nan"), ("")] : List String).countP
      (fun t => (normalize_number t).isNone) = 3 := by
  refine ⟨rfl, rfl, rfl, by decide, by decide⟩

theorem extractNumsAux_mem (lines : List (List Char)) (l : List Char)
    (hl : l ∈ lines) (hs : startsWithL (("TEL").data) l = true) :
    String.mk (pyStrip ((pySplit (':') l).getLastD [])) ∈ extractNumsAux lines := by
  induction lines with
  | nil => simp at hl
  | cons a rest ih =>
      rcases List.mem_cons.mp hl with rfl | hmem
      · unfold extractNumsAux
        rw [if_pos hs]
        exact List.mem_cons_self _ _
      · unfold extractNumsAux
        by_cases ha : startsWithL (('T') :: ('E') :: ('L') :: []) a = true
        · rw [if_pos ha]
          exact List.mem_cons_of_mem _ (ih hmem)
        · rw [if_neg ha]
          exact ih hmem

/-- Claim C10: a `TEL`-starting line with no colon at all contributes the
whole line (stripped) verbatim: `line.split(":")` is then `[line]` and its
last element is the line itself. -/
theorem c10_tel_line_without_colon (content : String) (l : List Char)
    (hmem : l ∈ splitLines content.data)
    (hstart : startsWithL (("TEL").data) l = true)
    (hcolon : (':') ∉ l) :
    String.mk (pyStrip l) ∈ extract_numbers_from_vcf content := by
  have h := extractNumsAux_mem (splitLines content.data) l hmem hstart
  rw [pySplit_of_not_mem _ _ hcolon] at h
  simpa [extract_numbers_from_vcf] using h

/-- Claim C10, witness: the vCard text consisting of the single line
`TEL` yields the extracted string `TEL`. -/
theorem c10_witness :
    ((("TEL").data ∈ splitLines (("TEL") : String).data) ∧
      startsWithL (("TEL").data) (("TEL").data) = true ∧
      (':') ∉ (("TEL").data)) ∧
    String.mk (pyStrip (("TEL").data)) ∈ extract_numbers_from_vcf ("TEL") :=
  ⟨⟨by decide, by decide, by decide⟩,
    c10_tel_line_without_colon ("TEL") (("TEL").data)
      (by decide) (by decide) (by decide)⟩

theorem extractNumsAux_cons (line : List Char) (rest : List (List Char)) :
    extractNumsAux (line :: rest) =
      if startsWithL (("TEL").data) line then
        String.mk (pyStrip ((pySplit (':') line).getLastD [])) :: extractNumsAux rest
      else extractNumsAux rest := by
  rw [extractNumsAux.eq_def]

theorem extractNumsAux_eq_filter_map (lines : List (List Char)) :
    extractNumsAux lines =
      (lines.filter (fun l => startsWithL (("TEL").data) l)).map
        (fun l => String.mk (pyStrip (afterLast (':') l))) := by
  induction lines with
  | nil => rfl
  | cons a rest ih =>
      by_cases ha : startsWithL (("TEL").data) a = true
      · rw [List.filter_cons_of_pos ha, List.map_cons, ← pySplit_getLastD, ← ih,
          extractNumsAux_cons, if_pos ha]
      · rw [List.filter_cons_of_neg (by simpa using ha), ← ih,
          extractNumsAux_cons, if_neg ha]

/-- Claim C6 (amended): `extract_numbers_from_vcf` returns, in line order,
one entry per line that begins with `TEL` **untrimmed** (the code checks
`line.startswith("TEL")` on the raw line, so an indented `TEL` line does
not match), after splitting lines (which treats `\r\n` as one
terminator); each entry is the substring after the last colon, trimmed of
surrounding whitespace. -/
theorem c6_extract_numbers (content : String) :
    extract_numbers_from_vcf content =
      ((splitLines content.data).filter
          (fun l => startsWithL (("TEL").data) l)).map
        (fun l => String.mk (pyStrip (afterLast (':') l))) := by
  unfold extract_numbers_from_vcf
  exact extractNumsAux_eq_filter_map _

/-- Claim C6, counterexample: the line `" TEL:5"` has trimmed content
beginning with `TEL`, so the claimed (trim-then-match) extraction yields
`["5"]`, but the code matches on the untrimmed line and returns no
entry. -/
theorem c6_counterexample :
    startsWithL (("TEL").data) (pyStrip ((" TEL:5") : String).data) = true ∧
    splitLines ((" TEL:5") : String).data = [((" TEL:5") : String).data] ∧
    extract_numbers_from_vcf (" TEL:5") = [] ∧
    extractNumbersClaimed (" TEL:5") = [("5")] := by
  refine ⟨by decide, by decide, rfl, by decide⟩

theorem intRange_natCast (k : Nat) :
    intRange (k : Int) = (List.range k).map (fun (s : Nat) => (s : Int)) := by
  unfold intRange
  rw [Int.toNat_ofNat]

theorem vcfBatches_nil (b : Nat) (start : Int) : vcfBatches [] b start = [] := by
  unfold vcfBatches
  have h0 : (List.length ([] : List String) + b - 1) / b = 0 := by
    cases b with
    | zero => rfl
    | succ b' => exact Nat.div_eq_of_lt (by simp only [List.length_nil]; omega)
  rw [h0]
  rfl

theorem vcfBatches_cons (items : List String) (b : Nat) (start : Int)
    (hb : 1 ≤ b) (hne : items ≠ []) :
    vcfBatches items b start =
      (start, items.take b) :: vcfBatches (items.drop b) b (start + 1) := by
  have hn : 1 ≤ items.length := List.length_pos.mpr hne
  have hK : (items.length + b - 1) / b = (items.length - 1) / b + 1 := by
    have h1 : items.length + b - 1 = (items.length - 1) + b := by omega
    rw [h1, Nat.add_div_right _ (by omega)]
  have hK' : ((items.drop b).length + b - 1) / b = (items.length - 1) / b := by
    rw [List.length_drop]
    by_cases hbl : b ≤ items.length
    · have h2 : items.length - b + b - 1 = items.length - 1 := by omega
      rw [h2]
    · have h2 : items.length - b = 0 := by omega
      rw [h2, Nat.div_eq_of_lt (by omega), Nat.div_eq_of_lt (by omega)]
  unfold vcfBatches
  rw [hK, hK', List.range_succ_eq_map, List.map_cons, List.map_map]
  congr 1
  · simp
  · apply List.map_congr_left
    intro s hs
    simp only [Function.comp_apply, Nat.succ_eq_add_one]
    congr 1
    · push_cast
      ring
    · rw [List.drop_drop]
      congr 1
      ring_nf

theorem vcfBatches_flatten (b : Nat) (hb : 1 ≤ b) :
    ∀ (n : Nat) (items : List String), items.length ≤ n → ∀ (start : Int),
      ((vcfBatches items b start).map (fun p => p.2)).flatten = items := by
  intro n
  induction n with
  | zero =>
      intro items hlen start
      have h0 : items = [] := List.length_eq_zero.mp (by omega)
      rw [h0, vcfBatches_nil]
      rfl
  | succ n' ih =>
      intro items hlen start
      by_cases hne : items = []
      · rw [hne, vcfBatches_nil]
        rfl
      · rw [vcfBatches_cons items b start hb hne, List.map_cons, List.flatten_cons]
        have hdrop : (items.drop b).length ≤ n' := by
          rw [List.length_drop]
          have := List.length_pos.mpr hne
          omega
        rw [ih (items.drop b) hdrop (start + 1), List.take_append_drop]

theorem vcfBatches_getElem? (items : List String) (b : Nat) (start : Int)
    (i : Nat) (hi : i < (items.length + b - 1) / b) :
    (vcfBatches items b start)[i]? =
      some ((start + (i : Int)), (items.drop (i * b)).take b) := by
  unfold vcfBatches
  rw [List.getElem?_map, List.getElem?_range hi]
  rfl

theorem vcfBatches_length (items : List String) (b : Nat) (start : Int) :
    (vcfBatches items b start).length = (items.length + b - 1) / b := by
  simp [vcfBatches]

/-- Claim C2: for a positive batch size, `generate_vcf` realizes exactly
the partition `vcfBatches`: `ceil(len/batch)` batches whose lengths sum
to the input length, all of size `batch` except possibly the final one
(which is nonempty and no larger), with contiguous ascending set numbers
from `set_start`, and the items kept in input order (the concatenation of
the batches is the input). -/
theorem c2_partition (items : List String) (np fp : String) (b : Nat)
    (start : Int) (hb : 1 ≤ b) :
    generate_vcf items np fp start (b : Int) =
      .ok ((vcfBatches items b start).map (fun p =>
        (vcfFileName fp p.1, vcfBody np p.1 (p.2.map String.data)))) ∧
    (vcfBatches items b start).length = (items.length + b - 1) / b ∧
    ((vcfBatches items b start).map (fun p => p.2.length)).sum = items.length ∧
    ((vcfBatches items b start).map (fun p => p.2)).flatten = items ∧
    (∀ i p, (vcfBatches items b start)[i]? = some p →
      p.2.length ≤ b ∧ 0 < p.2.length ∧
      (i + 1 < (vcfBatches items b start).length → p.2.length = b)) ∧
    (vcfBatches items b start).map Prod.fst =
      (List.range (vcfBatches items b start).length).map
        (fun (s : Nat) => start + (s : Int)) := by
  have hflat := vcfBatches_flatten b hb items.length items (le_refl _) start
  refine ⟨?_, vcfBatches_length items b start, ?_, hflat, ?_, ?_⟩
  · unfold generate_vcf
    rw [if_neg (by omega)]
    have htot : Int.fdiv ((items.length : Int) + (b : Int) - 1) (b : Int) =
        (((items.length + b - 1) / b : Nat) : Int) := by
      have h1 : ((items.length : Int) + (b : Int) - 1) =
          ((items.length + b - 1 : Nat) : Int) := by omega
      rw [h1, Int.ofNat_fdiv]
    simp only [htot, intRange_natCast, vcfBatches, List.map_map]
    congr 1
    apply List.map_congr_left
    intro s hs
    simp only [Function.comp_apply]
    congr 1
    have hc1 : ((s : Int) * (b : Int)) = ((s * b : Nat) : Int) := by push_cast; ring
    have hc2 : (((s : Int) + 1) * (b : Int)) = (((s + 1) * b : Nat) : Int) := by
      push_cast; ring
    rw [hc1, hc2, pySlice_nonneg]
    have hc3 : (s + 1) * b - s * b = b := by
      have h4 : (s + 1) * b = s * b + b := by ring
      omega
    rw [hc3, List.map_take, List.map_drop]
  · conv_rhs => rw [← hflat]
    rw [List.length_flatten, List.map_map]
    rfl
  · intro i p hp
    have hi : i < (items.length + b - 1) / b := by
      have h1 : i < (vcfBatches items b start).length :=
        (List.getElem?_eq_some_iff.mp hp).1
      rwa [vcfBatches_length] at h1
    rw [vcfBatches_getElem? items b start i hi] at hp
    cases hp
    have hlen : ((items.drop (i * b)).take b).length =
        min b (items.length - i * b) := by
      rw [List.length_take, List.length_drop]
    have hmul : (i + 1) * b ≤ items.length + b - 1 :=
      (Nat.le_div_iff_mul_le (by omega : 0 < b)).mp (by omega : i + 1 ≤ (items.length + b - 1) / b)
    have hib : (i + 1) * b = i * b + b := by ring
    have hn1 : 1 ≤ items.length := by
      have hK : 1 ≤ (items.length + b - 1) / b := by omega
      have := (Nat.le_div_iff_mul_le (by omega : 0 < b)).mp hK
      omega
    refine ⟨by rw [hlen]; omega, by rw [hlen]; omega, ?_⟩
    intro hfin
    rw [vcfBatches_length] at hfin
    have hmul2 : (i + 2) * b ≤ items.length + b - 1 :=
      (Nat.le_div_iff_mul_le (by omega : 0 < b)).mp (by omega : i + 2 ≤ (items.length + b - 1) / b)
    have hib2 : (i + 2) * b = i * b + 2 * b := by ring
    rw [hlen]
    omega
  · rw [vcfBatches_length]
    unfold vcfBatches
    rw [List.map_map]
    rfl

/-- Claim C2, witness: three items, batch size two, start set number
five. -/
theorem c2_witness :
    generate_vcf [("+12025550100"), ("+12025550101"), ("+12025550102")]
        ("C") ("F") 5 ((2 : Nat) : Int) =
      .ok ((vcfBatches [("+12025550100"), ("+12025550101"), ("+12025550102")] 2 5).map
        (fun p => (vcfFileName ("F") p.1, vcfBody ("C") p.1 (p.2.map String.data)))) ∧
    (vcfBatches [("+12025550100"), ("+12025550101"), ("+12025550102")] 2 5).length =
      (([("+12025550100"), ("+12025550101"), ("+12025550102")] : List String).length + 2 - 1) / 2 ∧
    ((vcfBatches [("+12025550100"), ("+12025550101"), ("+12025550102")] 2 5).map
      (fun p => p.2.length)).sum =
      ([("+12025550100"), ("+12025550101"), ("+12025550102")] : List String).length ∧
    ((vcfBatches [("+12025550100"), ("+12025550101"), ("+12025550102")] 2 5).map
      (fun p => p.2)).flatten =
      [("+12025550100"), ("+12025550101"), ("+12025550102")] ∧
    (∀ i p,
      (vcfBatches [("+12025550100"), ("+12025550101"), ("+12025550102")] 2 5)[i]? =
        some p →
      p.2.length ≤ 2 ∧ 0 < p.2.length ∧
      (i + 1 <
          (vcfBatches [("+12025550100"), ("+12025550101"), ("+12025550102")] 2 5).length →
        p.2.length = 2)) ∧
    (vcfBatches [("+12025550100"), ("+12025550101"), ("+12025550102")] 2 5).map
        Prod.fst =
      (List.range
        (vcfBatches [("+12025550100"), ("+12025550101"), ("+12025550102")] 2 5).length).map
        (fun (s : Nat) => 5 + (s : Int)) :=
  c2_partition [("+12025550100"), ("+12025550101"), ("+12025550102")]
    ("C") ("F") 2 5 (by decide)

theorem paddedIdx_length (m i : Nat) (h2 : i ≤ m) :
    (paddedIdx m i).length = (decRepr m).length := by
  unfold paddedIdx
  rw [zfill_length]
  have := decRepr_length_mono i m h2
  omega

/-- Claim C8: every record index rendered by the batch loop is padded to
exactly the number of decimal digits of the batch's own item count
(`pad = len(str(len(chunk)))`), and the padded index appears in that
record's `FN` line inside the rendered batch. -/
theorem c8_padding (np : List Char) (set_no : Int) (chunk : List (List Char))
    (i : Nat) (num : List Char) (h : (i, num) ∈ pyEnum 1 chunk) :
    1 ≤ i ∧ i ≤ chunk.length ∧
    (paddedIdx chunk.length i).length = (decRepr chunk.length).length ∧
    (("FN:").data ++ np ++ (" ").data ++ intRepr set_no ++ (" ").data ++
        paddedIdx chunk.length i) ∈ renderChunk np set_no chunk := by
  obtain ⟨h1, h2, h3⟩ := pyEnum_mem 1 chunk i num h
  refine ⟨h1, by omega, paddedIdx_length _ _ (by omega), ?_⟩
  apply List.mem_flatMap.mpr
  refine ⟨(i, num), h, ?_⟩
  unfold vcfRecordLines
  exact List.Mem.tail _ (List.Mem.tail _ (List.Mem.tail _ (List.Mem.head _)))

/-- Claim C8, witness: in a batch of 100 numbers the index of the last
record is padded to the width of `str(100)`, namely 3 digits. -/
theorem c8_witness :
    (1 ≤ 100 ∧ 100 ≤ (List.replicate 100 ([] : List Char)).length ∧
      (paddedIdx (List.replicate 100 ([] : List Char)).length 100).length =
        (decRepr (List.replicate 100 ([] : List Char)).length).length ∧
      (("FN:").data ++ ("C").data ++ (" ").data ++ intRepr 1 ++ (" ").data ++
          paddedIdx (List.replicate 100 ([] : List Char)).length 100) ∈
        renderChunk (("C").data) 1 (List.replicate 100 ([] : List Char))) ∧
    (decRepr 100).length = 3 ∧ (decRepr 50).length = 2 ∧ (decRepr 5).length = 1 :=
  ⟨c8_padding (("C").data) 1 (List.replicate 100 ([] : List Char)) 100 []
      (by decide),
    by decide, by decide, by decide⟩

theorem string_mk_data (s : String) : String.mk s.data = s := rfl

theorem afterLast_append_getLast (sep : Char) (pre suf : List Char)
    (hp : pre.getLast? = some sep) (hs : sep ∉ suf) :
    afterLast sep (pre ++ suf) = suf := by
  unfold afterLast
  rw [List.reverse_append]
  rw [takeWhile_append_all _ _ _ ?all]
  case all =>
    intro a ha
    simp only [decide_eq_true_eq]
    rintro rfl
    exact hs (by simpa using ha)
  have hhead : pre.reverse.head? = some sep := by
    rw [List.head?_reverse]
    exact hp
  rcases hrev : pre.reverse with _ | ⟨c, cs⟩
  · rw [hrev] at hhead
    simp at hhead
  · rw [hrev] at hhead
    have hc : c = sep := by simpa using hhead
    subst hc
    rw [List.takeWhile_cons]
    simp

/-- Claim C4 (amended): encoding the single canonical number `n` with
`generate_vcf([n], "C", "F", 1, 1)` yields a mapping with the single key
`"F 1.vcf"` — the `.vcf` extension is appended by `generate_vcf` itself,
not by a collaborator — and `extract_numbers_from_vcf` applied to that
unit's text returns exactly `[n]`.  The hypotheses hold for every
canonical number: no colon, no line break, no surrounding whitespace. -/
theorem c4_roundtrip (n : String)
    (hcolon : (':') ∉ n.data)
    (hbreak : ∀ c ∈ n.data, lineBreak c = false)
    (hstrip : pyStrip n.data = n.data) :
    generate_vcf [n] ("C") ("F") 1 1 =
      .ok [(("F 1.vcf"), vcfBody ("C") 1 [n.data])] ∧
    extract_numbers_from_vcf (vcfBody ("C") 1 [n.data]) = [n] := by
  have hkey : vcfFileName ("F") 1 = ("F 1.vcf") := by decide
  constructor
  · rw [← hkey]
    rfl
  · have hlines : renderChunk (("C").data) 1 [n.data] =
        [("BEGIN:VCARD").data, ("VERSION:3.0").data, ("N:1;C 1;;;").data,
         ("FN:C 1 1").data, ("TEL;TYPE=CELL:").data ++ n.data,
         ("END:VCARD").data] := rfl
    have hbf : ∀ l ∈ renderChunk (("C").data) 1 [n.data],
        ∀ c ∈ l, lineBreak c = false := by
      rw [hlines]
      intro l hl
      simp only [List.mem_cons, List.not_mem_nil, or_false] at hl
      rcases hl with rfl | rfl | rfl | rfl | rfl | rfl
      · decide
      · decide
      · decide
      · decide
      · intro c hc
        rcases List.mem_append.mp hc with h | h
        · clear hc
          revert c
          decide
        · exact hbreak c h
      · decide
    have hlast : ∀ l, (renderChunk (("C").data) 1 [n.data]).getLast? = some l →
        l ≠ [] := by
      rw [hlines]
      intro l hl
      have : l = ("END:VCARD").data := by
        simp only [List.getLast?_cons_cons, List.getLast?_singleton,
          Option.some.injEq] at hl
        exact hl.symm
      rw [this]
      decide
    have hsplit : splitLines (joinNL (renderChunk (("C").data) 1 [n.data])) =
        renderChunk (("C").data) 1 [n.data] :=
      splitLines_joinNL _ hbf hlast
    show extractNumsAux
        (splitLines (String.mk (joinNL (renderChunk (("C").data) 1 [n.data]))).data) =
      [n]
    rw [show (String.mk (joinNL (renderChunk (("C").data) 1 [n.data]))).data =
        joinNL (renderChunk (("C").data) 1 [n.data]) from rfl]
    rw [hsplit, hlines]
    rw [extractNumsAux_cons, if_neg (by decide)]
    rw [extractNumsAux_cons, if_neg (by decide)]
    rw [extractNumsAux_cons, if_neg (by decide)]
    rw [extractNumsAux_cons, if_neg (by decide)]
    rw [extractNumsAux_cons,
      if_pos (show startsWithL (("TEL").data)
        ((("TEL;TYPE=CELL:").data ++ n.data)) = true from rfl)]
    rw [extractNumsAux_cons, if_neg (by decide)]
    rw [show extractNumsAux [] = [] from rfl]
    rw [pySplit_getLastD, afterLast_append_getLast (':') _ _ (by decide) hcolon,
      hstrip, string_mk_data]

/-- Claim C4, counterexample to the naming part as claimed: the mapping
produced by `generate_vcf([n], "C", "F", 1, 1)` has the single key
`"F 1.vcf"`, not `"F 1"` — the core itself appends the extension — so
lookup under `"F 1"` finds nothing. -/
theorem c4_counterexample :
    generate_vcf [("+12025550123")] ("C") ("F") 1 1 =
      .ok [(("F 1.vcf"),
        ("BEGIN:VCARD\nVERSION:3.0\nN:1;C 1;;;\nFN:C 1 1\nTEL;TYPE=CELL:+12025550123\nEND:VCARD"))] ∧
    (("F 1.vcf") : String) ≠ ("F 1") ∧
    (generate_vcf [("+12025550123")] ("C") ("F") 1 1).map
      (fun d => d.lookup ("F 1")) = .ok none := by
  refine ⟨rfl, by decide, rfl⟩

/-- Claim C4, witness: the amended round trip at the canonical number
`+12025550123`. -/
theorem c4_witness :
    generate_vcf [("+12025550123")] ("C") ("F") 1 1 =
      .ok [(("F 1.vcf"), vcfBody ("C") 1 [("+12025550123").data])] ∧
    extract_numbers_from_vcf (vcfBody ("C") 1 [("+12025550123").data]) =
      [("+12025550123")] :=
  c4_roundtrip ("+12025550123") (by decide) (by decide) (by decide)

theorem collectAux_cons (seen : List String) (r : String) (rest : List String) :
    collectAux seen (r :: rest) =
      match normalize_number r with
      | none => collectAux seen rest
      | some n =>
          if n = ("") ∨ n ∈ seen then collectAux seen rest
          else n :: collectAux (n :: seen) rest := by
  rw [collectAux.eq_def]

theorem keepFirst_cons (a : String) (l : List String) :
    keepFirst (a :: l) = a :: keepFirst (l.filter (fun b => !(b == a))) := by
  rw [keepFirst.eq_def]

theorem keepFirst_nil : keepFirst [] = [] := by
  rw [keepFirst.eq_def]

theorem collectAux_cons_none (seen : List String) (r : String)
    (rest : List String) (h : normalize_number r = none) :
    collectAux seen (r :: rest) = collectAux seen rest := by
  rw [collectAux_cons, h]

theorem collectAux_cons_some (seen : List String) (r : String)
    (rest : List String) (n : String) (h : normalize_number r = some n) :
    collectAux seen (r :: rest) =
      if n = ("") ∨ n ∈ seen then collectAux seen rest
      else n :: collectAux (n :: seen) rest := by
  rw [collectAux_cons, h]

theorem normalize_number_ne_empty (raw n : String)
    (h : normalize_number raw = some n) : n ≠ ("") := by
  unfold normalize_number at h
  by_cases he : (pyStrip raw.data).isEmpty
  · simp [he] at h
  · simp only [he, Bool.false_eq_true, if_false] at h
    rcases hp : phonenumbers.parse
        (if startsWithL (('+') :: []) (pyStrip raw.data) then pyStrip raw.data
         else ('+') :: (pyStrip raw.data).filter Char.isDigit) with e | num
    · rw [hp] at h
      simp at h
    · rw [hp] at h
      by_cases hposs : phonenumbers.is_possible_number num
      · simp only [hposs, if_true, Option.some.injEq] at h
        intro hcontra
        rw [hcontra] at h
        have := congrArg String.data h
        simp [phonenumbers.format_E164] at this
      · simp [hposs] at h

theorem collectAux_eq_dedupLoop (ts : List String) :
    ∀ seen, collectAux seen ts = dedupLoop seen (ts.filterMap normalize_number) := by
  induction ts with
  | nil => intro seen; rfl
  | cons r rest ih =>
      intro seen
      rw [collectAux_cons, List.filterMap_cons]
      rcases hn : normalize_number r with _ | n
      · exact ih seen
      · show (if n = ("") ∨ n ∈ seen then collectAux seen rest
          else n :: collectAux (n :: seen) rest) =
          dedupLoop seen (n :: rest.filterMap normalize_number)
        rw [show dedupLoop seen (n :: rest.filterMap normalize_number) =
          if n = ("") ∨ n ∈ seen then dedupLoop seen (rest.filterMap normalize_number)
          else n :: dedupLoop (n :: seen) (rest.filterMap normalize_number) from rfl]
        by_cases hcond : n = ("") ∨ n ∈ seen
        · rw [if_pos hcond, if_pos hcond, ih seen]
        · rw [if_neg hcond, if_neg hcond, ih (n :: seen)]

theorem dedupLoop_eq_keepFirst (vs : List String) :
    ∀ seen, (∀ v ∈ vs, v ≠ ("")) →
      dedupLoop seen vs = keepFirst (vs.filter (fun b => !(decide (b ∈ seen)))) := by
  induction vs with
  | nil =>
      intro seen _
      rw [show dedupLoop seen [] = [] from rfl, List.filter_nil, keepFirst_nil]
  | cons n vs ih =>
      intro seen hne
      have hn0 : n ≠ ("") := hne n (by simp)
      have hrest : ∀ v ∈ vs, v ≠ ("") := fun v hv => hne v (by simp [hv])
      show (if n = ("") ∨ n ∈ seen then dedupLoop seen vs
        else n :: dedupLoop (n :: seen) vs) = _
      by_cases hmem : n ∈ seen
      · rw [if_pos (Or.inr hmem), List.filter_cons_of_neg (by simp [hmem])]
        exact ih seen hrest
      · rw [if_neg (by rintro (h | h); exact hn0 h; exact hmem h),
          List.filter_cons_of_pos (by simp [hmem]), keepFirst_cons,
          ih (n :: seen) hrest, List.filter_filter]
        congr 1
        congr 1
        apply List.filter_congr
        intro b hb
        by_cases h1 : b = n <;> by_cases h2 : b ∈ seen <;>
          simp [h1, h2, List.mem_cons]

theorem collectAux_nodup (ts : List String) :
    ∀ seen, (collectAux seen ts).Nodup ∧ ∀ x ∈ collectAux seen ts, x ∉ seen := by
  induction ts with
  | nil => intro seen; exact ⟨List.nodup_nil, by simp [collectAux]⟩
  | cons r rest ih =>
      intro seen
      rcases hn : normalize_number r with _ | n
      · rw [collectAux_cons_none seen r rest hn]
        exact ih seen
      · rw [collectAux_cons_some seen r rest n hn]
        by_cases hcond : n = ("") ∨ n ∈ seen
        · rw [if_pos hcond]
          exact ih seen
        · rw [if_neg hcond]
          obtain ⟨ihn, ihs⟩ := ih (n :: seen)
          refine ⟨?_, ?_⟩
          · rw [List.nodup_cons]
            exact ⟨fun hmem => (ihs n hmem) (List.mem_cons_self _ _), ihn⟩
          · intro x hx
            rcases List.mem_cons.mp hx with rfl | hx'
            · intro hxs
              exact hcond (Or.inr hxs)
            · intro hxs
              exact (ihs x hx') (List.mem_cons_of_mem _ hxs)

/-- Claim C3: the collector's output never repeats a canonical value, and
it equals the first-occurrence deduplication of the normalized stream:
each value's position is that of its first occurrence in source order
(`keepFirst` keeps the head and deletes later duplicates), never a sorted
arrangement. -/
theorem c3_collect_dedup (raws : List String) :
    (collectNumbers raws).Nodup ∧
    collectNumbers raws =
      keepFirst ((clean_raw_numbers raws).filterMap normalize_number) := by
  constructor
  · exact (collectAux_nodup (clean_raw_numbers raws) []).1
  · unfold collectNumbers
    rw [collectAux_eq_dedupLoop,
      dedupLoop_eq_keepFirst _ []
        (fun v hv => by
          obtain ⟨r, _, hfr⟩ := List.mem_filterMap.mp hv
          exact normalize_number_ne_empty r v hfr)]
    congr 1
    simp

theorem mem_sInsert (s : List String) (x y : String) :
    y ∈ sInsert s x ↔ y ∈ s ∨ y = x := by
  unfold sInsert
  by_cases h : x ∈ s
  · rw [if_pos h]
    exact ⟨Or.inl, fun hy => hy.elim id (fun he => he ▸ h)⟩
  · rw [if_neg h]
    simp

theorem mem_sUnion (xs : List String) :
    ∀ (s : List String) (y : String), y ∈ sUnion s xs ↔ y ∈ s ∨ y ∈ xs := by
  induction xs with
  | nil => intro s y; simp [sUnion]
  | cons x xs ih =>
      intro s y
      rw [show sUnion s (x :: xs) = sUnion (sInsert s x) xs from rfl, ih,
        mem_sInsert]
      simp only [List.mem_cons]
      tauto

theorem dedupeNums_cons (nm : String) (s : List String)
    (rest : List (String × List String)) (seen : List String) :
    dedupeNums ((nm, s) :: rest) seen =
      (nm, s.filter (fun n => !(decide (n ∈ seen)))) ::
        dedupeNums rest (sUnion seen s) := rfl

theorem dedupeNums_getElem? (d : List (String × List String)) :
    ∀ (seen : List String) (i : Nat),
      (dedupeNums d seen)[i]? = (d[i]?).map (fun c =>
        (c.1, c.2.filter (fun n =>
          !(decide (n ∈ seen ∨ n ∈ ((d.take i).flatMap (fun e => e.2))))))) := by
  induction d with
  | nil => intro seen i; simp [dedupeNums]
  | cons c0 rest ih =>
      rcases c0 with ⟨nm, s⟩
      intro seen i
      rw [dedupeNums_cons]
      cases i with
      | zero =>
          simp only [List.getElem?_cons_zero, Option.map_some', List.take_zero,
            List.flatMap_nil, List.not_mem_nil, or_false, Option.some.injEq]
      | succ i' =>
          simp only [List.getElem?_cons_succ, List.take_succ_cons,
            List.flatMap_cons]
          rw [ih (sUnion seen s) i']
          rcases hri : rest[i']? with _ | c
          · rfl
          · simp only [Option.map_some', Option.some.injEq]
            congr 1
            apply List.filter_congr
            intro n hn
            have hsu := mem_sUnion s seen n
            by_cases h1 : n ∈ seen <;> by_cases h2 : n ∈ s <;>
              by_cases h3 : n ∈ (rest.take i').flatMap (fun e => e.2) <;>
              simp [h1, h2, h3, hsu, List.mem_append]

theorem flatMap_skip_empty (l : List (String × List String)) :
    (l.flatMap (fun c => if c.2.isEmpty then [] else renderContactLines c.1 c.2)) =
      ((l.filter (fun c => !(c.2.isEmpty))).flatMap
        (fun c => renderContactLines c.1 c.2)) := by
  induction l with
  | nil => rfl
  | cons c rest ih =>
      rw [List.flatMap_cons]
      by_cases hc : c.2.isEmpty
      · rw [if_pos hc, List.filter_cons_of_neg (by simp [hc]), ih]
        rw [List.nil_append]
      · rw [if_neg hc, List.filter_cons_of_pos (by simp [hc]), List.flatMap_cons,
          ih]

/-- Claim C7: with `merge_by_number = true`, each position of the
deduplicated dict keeps exactly the numbers of the corresponding merged
contact that occur in no earlier merged contact (first contact in
iteration order wins); consequently no number appears on two output
contacts; and the rendered merge omits every contact whose number set
ended up empty (only contacts with nonempty sets are rendered). -/
theorem c7_global_number_dedupe (texts : List String) (mbn : Bool) :
    (∀ (i : Nat), (dedupeNums (mergedDict texts mbn) [])[i]? =
      ((mergedDict texts mbn)[i]?).map (fun c =>
        (c.1, c.2.filter (fun n =>
          !(decide (n ∈ (((mergedDict texts mbn).take i).flatMap
            (fun e => e.2)))))))) ∧
    List.Pairwise (fun a b => ∀ n ∈ a.2, n ∉ b.2)
      (dedupeNums (mergedDict texts mbn) []) ∧
    merge_vcf_files texts mbn true =
      String.mk (joinNL
        (((dedupeNums (mergedDict texts mbn) []).filter
            (fun c => !(c.2.isEmpty))).flatMap
          (fun c => renderContactLines c.1 c.2))) := by
  have hchar := dedupeNums_getElem? (mergedDict texts mbn) []
  refine ⟨?_, ?_, ?_⟩
  · intro i
    rw [hchar i]
    rcases h : (mergedDict texts mbn)[i]? with _ | c
    · rfl
    · simp only [Option.map_some', Option.some.injEq]
      congr 1
      apply List.filter_congr
      intro n hn
      simp
  · rw [List.pairwise_iff_getElem]
    intro i j hi hj hij
    intro n hni hnj
    have hpi := List.getElem?_eq_getElem hi
    have hpj := List.getElem?_eq_getElem hj
    rw [hchar i] at hpi
    rw [hchar j] at hpj
    rcases hmi : (mergedDict texts mbn)[i]? with _ | ci
    · rw [hmi] at hpi
      simp at hpi
    rcases hmj : (mergedDict texts mbn)[j]? with _ | cj
    · rw [hmj] at hpj
      simp at hpj
    rw [hmi] at hpi
    rw [hmj] at hpj
    simp only [Option.map_some', Option.some.injEq] at hpi hpj
    rw [← hpi] at hni
    rw [← hpj] at hnj
    have hci : n ∈ ci.2 := (List.mem_filter.mp hni).1
    have hpred := (List.mem_filter.mp hnj).2
    simp only [Bool.not_eq_true', decide_eq_false_iff_not] at hpred
    apply hpred
    right
    apply List.mem_flatMap.mpr
    refine ⟨ci, ?_, hci⟩
    apply List.getElem?_mem (n := i)
    rw [List.getElem?_take_of_lt hij]
    exact hmi
  · rw [show merge_vcf_files texts mbn true =
      String.mk (joinNL ((dedupeNums (mergedDict texts mbn) []).flatMap
        (fun c => if c.2.isEmpty then [] else renderContactLines c.1 c.2)))
      from rfl]
    rw [flatMap_skip_empty]

end VCF
